import Mathlib

/-!
Shallow embedding of the Kalaha rules engine (`src/assignment1/kalaha/board.py`,
`src/assignment1/kalaha/rules.py`) and of the MCTS agent
(`src/assignment1/kalaha/agents/mcts_node.py`, `mcts_player.py`).

Conventions of the embedding:
* A `KalahaBoard` carries `pits_per_player` and the flat `board` list of slot
  counts, exactly as the Python `KalahaBoard` object.  `current_player` is
  never read by the rules or the agent, so it is omitted.
* Python in-place mutation becomes explicit state passing: every operation
  returns the board that the mutable Python object holds when the call exits.
* `make_move` returns `(board, none)` for the `ValueError` raise (the invalid
  move error) and `(board, some extraTurn)` for a normal return; the board
  component is the state of the caller object at that moment.
* Stone counts are natural numbers; players are naturals (`0` and `1` in every
  reachable call, mirrored by `player < 2` hypotheses where the Python code
  would only ever be called with a real player id).
-/

structure KalahaBoard where
  pits_per_player : ℕ
  board : List ℕ
deriving DecidableEq, Repr

/-- Python `KalahaBoard.total_pits = pits_per_player * 2 + 2`. -/
def KalahaBoard.total_pits (b : KalahaBoard) : ℕ := b.pits_per_player * 2 + 2

/-- Python `KalahaBoard.get_store`: `player_stores = [P, P*2+1]` indexed by player. -/
def KalahaBoard.get_store (b : KalahaBoard) (player : ℕ) : ℕ :=
  if player = 0 then b.pits_per_player else b.pits_per_player * 2 + 1

/-- Python `KalahaBoard.get_player_pits`: `range(0, P)` for player 0,
`range(P+1, 2P+1)` otherwise. -/
def KalahaBoard.get_player_pits (b : KalahaBoard) (player : ℕ) : List ℕ :=
  if player = 0 then List.range b.pits_per_player
  else List.range' (b.pits_per_player + 1) b.pits_per_player

/-- Python `KalahaBoard.get_stones`: read a slot of the flat board list. -/
def KalahaBoard.get_stones (b : KalahaBoard) (pit : ℕ) : ℕ := b.board.getD pit 0

/-- Python `KalahaBoard.set_stones`. -/
def KalahaBoard.set_stones (b : KalahaBoard) (pit stones : ℕ) : KalahaBoard :=
  { b with board := b.board.set pit stones }

/-- Python `KalahaBoard.add_stones`: `board[pit] += stones`. -/
def KalahaBoard.add_stones (b : KalahaBoard) (pit stones : ℕ) : KalahaBoard :=
  b.set_stones pit (b.get_stones pit + stones)

/-- Python `KalahaBoard.get_opposite_pit`: `total_pits - 2 - pit`. -/
def KalahaBoard.get_opposite_pit (b : KalahaBoard) (pit : ℕ) : ℕ :=
  b.total_pits - 2 - pit

/-- Python `KalahaBoard._init_board`: stones everywhere except the two stores. -/
def initBoard (P S : ℕ) : KalahaBoard :=
  { pits_per_player := P
    board := (List.range (P * 2 + 2)).map
      (fun i => if i = P ∨ i = P * 2 + 1 then 0 else S) }

/-- Well-formedness that every Python board satisfies by construction: the flat
list has exactly `2P + 2` slots. -/
def wfBoard (b : KalahaBoard) : Prop := b.board.length = b.pits_per_player * 2 + 2

instance (b : KalahaBoard) : Decidable (wfBoard b) := by
  unfold wfBoard; infer_instance

/-- Python `KalahaRules.is_move_valid`: the pit belongs to the mover's row and
holds at least one stone. -/
def is_move_valid (b : KalahaBoard) (player pit : ℕ) : Bool :=
  decide (pit ∈ b.get_player_pits player) && decide (0 < b.get_stones pit)

/-- One step of the sowing while-loop of `KalahaRules.make_move`: advance with
wraparound, skip the opponent's store, deposit one stone. -/
def sow_step (b : KalahaBoard) (current opponent_store : ℕ) : KalahaBoard × ℕ :=
  let c1 := (current + 1) % b.total_pits
  let c2 := if c1 = opponent_store then (c1 + 1) % b.total_pits else c1
  (b.add_stones c2 1, c2)

/-- The sowing while-loop of `KalahaRules.make_move`, recursing on the number
of stones still in hand; returns the board and the last visited slot. -/
def sow (b : KalahaBoard) (stones current opponent_store : ℕ) : KalahaBoard × ℕ :=
  match stones with
  | 0 => (b, current)
  | n + 1 =>
    let s := sow_step b current opponent_store
    sow s.1 n s.2 opponent_store

/-- Python `KalahaRules.make_move`.  Result `(b, none)` models the
`ValueError` raise (validation happens before any mutation); `(b, some e)`
models a normal return with extra-turn flag `e`. -/
def make_move (b : KalahaBoard) (player pit : ℕ) : KalahaBoard × Option Bool :=
  if is_move_valid b player pit = false then (b, none)
  else
    let stones := b.get_stones pit
    let b1 := b.set_stones pit 0
    let s := sow b1 stones pit (b.get_store (1 - player))
    let b2 := s.1
    let landing := s.2
    if landing = b.get_store player then (b2, some true)
    else if landing ∈ b.get_player_pits player ∧ b2.get_stones landing = 1 then
      let opposite := b.get_opposite_pit landing
      if 0 < b2.get_stones opposite then
        let total_capture := b2.get_stones opposite + 1
        let b3 := b2.add_stones (b.get_store player) total_capture
        let b4 := b3.set_stones landing 0
        (b4.set_stones opposite 0, some false)
      else (b2, some false)
    else (b2, some false)

/-- Python `KalahaRules.is_game_over`: some player's whole row is empty. -/
def is_game_over (b : KalahaBoard) : Bool :=
  ((b.get_player_pits 0).all (fun pit => b.get_stones pit == 0)) ||
  ((b.get_player_pits 1).all (fun pit => b.get_stones pit == 0))

/-- The inner for-loop of `KalahaRules.finish_game` for one player: sweep each
pit of the row into that player's store. -/
def sweep_row (b : KalahaBoard) (player : ℕ) : KalahaBoard :=
  (b.get_player_pits player).foldl
    (fun bb pit => (bb.add_stones (bb.get_store player) (bb.get_stones pit)).set_stones pit 0)
    b

/-- Python `KalahaRules.finish_game`: sweep player 0's row, then player 1's. -/
def finish_game (b : KalahaBoard) : KalahaBoard := sweep_row (sweep_row b 0) 1

/-- Python `KalahaRules.get_winner`: compare stores, `-1` is the tie sentinel. -/
def get_winner (b : KalahaBoard) : ℤ :=
  let score0 := b.get_stones (b.get_store 0)
  let score1 := b.get_stones (b.get_store 1)
  if score1 < score0 then 0 else if score0 < score1 then 1 else -1

/-- Boards reachable from `initBoard P S` by sequences of legal moves applied
through `make_move` (by either player). -/
inductive Reachable (P S : ℕ) : KalahaBoard → Prop
  | init : Reachable P S (initBoard P S)
  | move (b : KalahaBoard) (player pit : ℕ) (hb : Reachable P S b) (hp : player < 2)
      (hv : is_move_valid b player pit = true) :
      Reachable P S (make_move b player pit).1

/-- Total stone count of a board. -/
def boardSum (b : KalahaBoard) : ℕ := b.board.sum

/-- An invalid move returns the untouched board together with the raise marker. -/
lemma make_move_invalid {b : KalahaBoard} {player pit : ℕ}
    (h : is_move_valid b player pit = false) : make_move b player pit = (b, none) := by
  simp [make_move, h]

/-- A valid move always returns normally (some extra-turn flag). -/
lemma make_move_valid_some {b : KalahaBoard} {player pit : ℕ}
    (h : is_move_valid b player pit = true) :
    ∃ e, (make_move b player pit).2 = some e := by
  unfold make_move
  simp only [h, Bool.true_eq_false, if_false]
  split
  · exact ⟨true, rfl⟩
  · split
    · split
      · exact ⟨false, rfl⟩
      · exact ⟨false, rfl⟩
    · exact ⟨false, rfl⟩

/-- Move validity unfolded: own row membership plus a nonempty pit. -/
lemma is_move_valid_false_iff (b : KalahaBoard) (player pit : ℕ) :
    is_move_valid b player pit = false ↔
      (pit ∉ b.get_player_pits player ∨ b.get_stones pit = 0) := by
  by_cases hmem : pit ∈ b.get_player_pits player <;> simp [is_move_valid, hmem]

/-- The board state of `make_move` after the sowing loop, paired with the final
landing slot (the local `board, current_pit` pair at the end of PART 1). -/
def sowedBoard (b : KalahaBoard) (player pit : ℕ) : KalahaBoard × ℕ :=
  sow (b.set_stones pit 0) (b.get_stones pit) pit (b.get_store (1 - player))

/-!
MCTS agent embedding (`agents/mcts_node.py`, `agents/mcts_player.py`).

Randomness: Python's global `random` is modelled by a stream (`List ℕ`) of
draws; `random.choice(lst)` consumes one draw `r` and picks `lst[r % len lst]`.
Python in-place tree mutation becomes pure tree rebuilding; the parent pointer
of `MCTSNode` is represented by passing the parent's mover downward where the
code reads `self.parent.player`.  The numeric UCT selection (floats) is
modelled separately over the reals below; the search loop takes the selector
as a parameter `sel` returning the index of the chosen child, so the loop
theorems hold for every selector including the UCT one.
-/

/-- Python `MCTSNode`: game state, mover, the move that created the node,
statistics, children in insertion order, untried moves. -/
structure MCTSNode where
  board : KalahaBoard
  player : ℕ
  move : Option ℕ
  wins : ℚ
  visits : ℕ
  children : List MCTSNode
  untried_moves : List ℕ

instance : ∀ (l : List MCTSNode), Decidable (l = [])
  | [] => isTrue rfl
  | _ :: _ => isFalse (by simp)

/-- Python `MCTSNode._get_untried_moves`: the mover's nonempty pits. -/
def get_untried_moves (b : KalahaBoard) (player : ℕ) : List ℕ :=
  (b.get_player_pits player).filter (fun pit => decide (0 < b.get_stones pit))

/-- Python `MCTSNode.update`: one visit increment, one reward addition. -/
def MCTSNode.update (n : MCTSNode) (result : ℚ) : MCTSNode :=
  { n with visits := n.visits + 1, wins := n.wins + result }

/-- The statistics change one backpropagation pass applies at one node: the
loop body calls `update result` once unconditionally, then `update 0` in the
tie branch (`result == -1`) or `update result` again otherwise. -/
def backprop_at (n : MCTSNode) (result : ℚ) : MCTSNode :=
  let n1 := n.update result
  if result = -1 then n1.update 0 else n1.update result

/-- The reward the backpropagation loop carries from a node to its parent:
unchanged in the tie branch, flipped when the movers differ. -/
def carried_up (nodePlayer parentPlayer : ℕ) (result : ℚ) : ℚ :=
  if result = -1 then result
  else if nodePlayer ≠ parentPlayer then 1 - result else result

/-- One draw from the modelled random stream. -/
def nextRand : List ℕ → ℕ × List ℕ
  | [] => (0, [])
  | r :: rs => (r, rs)

/-- The while loop of `MCTSNode.rollout`, with explicit fuel (the Python loop
runs until the game ends or the mover is stuck; concrete uses take the fuel
large enough).  Returns final board, final mover, remaining randomness. -/
def rollout_loop : ℕ → KalahaBoard → ℕ → List ℕ → KalahaBoard × ℕ × List ℕ
  | 0, b, p, rng => (b, p, rng)
  | fuel + 1, b, p, rng =>
    if is_game_over b then (b, p, rng)
    else
      let valid := (b.get_player_pits p).filter (fun pit => decide (0 < b.get_stones pit))
      if valid.length = 0 then (b, p, rng)
      else
        let r := nextRand rng
        let mv := valid.getD (r.1 % valid.length) 0
        let res := make_move b p mv
        rollout_loop fuel res.1 (if res.2.getD false then p else 1 - p) r.2

/-- Python `MCTSNode.rollout`: simulate to the end, `finish_game`, then
compare the winner with the parent node's mover (`self.parent.player`);
ties give `0.0`. -/
def rollout (fuel : ℕ) (b : KalahaBoard) (nodePlayer parentPlayer : ℕ)
    (rng : List ℕ) : ℚ × List ℕ :=
  let s := rollout_loop fuel b nodePlayer rng
  let w := get_winner (finish_game s.1)
  (if w = -1 then 0 else if w = (parentPlayer : ℤ) then 1 else 0, s.2.2)

/-- One iteration of the `MCTSPlayer.get_move` loop on the subtree rooted at
`n` whose parent mover is `parentPlayer` (for the root the argument is unused
on every path the code can take): selection while fully expanded, then
expansion (`MCTSNode.add_child`), simulation, and the per-node statistics
updates of the backpropagation walk.  Returns the rebuilt subtree, the reward
as applied at `n`, and the remaining randomness. -/
def run_iteration (sel : MCTSNode → ℕ) (fuel parentPlayer : ℕ)
    (n : MCTSNode) (rng : List ℕ) : MCTSNode × ℚ × List ℕ :=
  if hsel : n.untried_moves = [] ∧ n.children ≠ [] then
    let i := sel n % n.children.length
    have hi : i < n.children.length :=
      Nat.mod_lt _ (List.length_pos.mpr hsel.2)
    let c := n.children.get ⟨i, hi⟩
    let s := run_iteration sel fuel n.player c rng
    let rUp := carried_up c.player n.player s.2.1
    (backprop_at { n with children := n.children.set i s.1 } rUp, rUp, s.2.2)
  else if n.untried_moves ≠ [] then
    let r := nextRand rng
    let mv := n.untried_moves.getD (r.1 % n.untried_moves.length) 0
    let res := make_move n.board n.player mv
    let childPlayer := if res.2.getD false then n.player else 1 - n.player
    let child : MCTSNode :=
      { board := res.1, player := childPlayer, move := some mv, wins := 0, visits := 0,
        children := [], untried_moves := get_untried_moves res.1 childPlayer }
    let ro := rollout fuel child.board child.player n.player r.2
    let rUp := carried_up child.player n.player ro.1
    let untried1 := n.untried_moves.erase mv
    let children1 := n.children ++ [backprop_at child ro.1]
    (backprop_at { n with untried_moves := untried1, children := children1 } rUp, rUp, ro.2)
  else
    let ro := rollout fuel n.board n.player parentPlayer rng
    (backprop_at n ro.1, ro.1, ro.2)
termination_by sizeOf n
decreasing_by
  have key : ∀ x ∈ n.children, sizeOf x < sizeOf n := by
    intro x hx
    have h1 := List.sizeOf_lt_of_mem hx
    cases n
    simp only [MCTSNode.mk.sizeOf_spec] at *
    omega
  exact key _ (List.get_mem _ _ _)

/-- The `for _ in range(self.iterations)` loop of `MCTSPlayer.get_move`. -/
def mcts_loop (sel : MCTSNode → ℕ) (fuel : ℕ) : ℕ → MCTSNode → List ℕ → MCTSNode × List ℕ
  | 0, root, rng => (root, rng)
  | k + 1, root, rng =>
    let s := run_iteration sel fuel root.player root rng
    mcts_loop sel fuel k s.1 s.2.2

/-- Root construction in `MCTSPlayer.get_move` (the board is deep-copied, so
the caller's board is untouched; the embedding is pure). -/
def mkRoot (b : KalahaBoard) (player : ℕ) : MCTSNode :=
  { board := b, player := player, move := none, wins := 0, visits := 0, children := [],
    untried_moves := get_untried_moves b player }

/-- Python `max(root.children, key=lambda c: c.visits)`: first child with the
maximal visit count (Python's `max` keeps the earlier element on ties). -/
def best_child : List MCTSNode → Option MCTSNode
  | [] => none
  | c :: cs => some (cs.foldl (fun best x => if best.visits < x.visits then x else best) c)

/-- Python `MCTSPlayer.get_move`: build the root, return `-1` when it has no
legal move, otherwise run the iteration loop and return the most visited
child's move.  `none` models the `ValueError` Python's `max` raises on an
empty children list (possible only with an iteration budget of zero). -/
def mcts_get_move (sel : MCTSNode → ℕ) (fuel iters : ℕ) (b : KalahaBoard)
    (player : ℕ) (rng : List ℕ) : Option ℤ :=
  let root := mkRoot b player
  if root.untried_moves = [] then some (-1)
  else
    let s := mcts_loop sel fuel iters root rng
    match best_child s.1.children with
    | some c => some ((c.move.getD 0 : ℕ) : ℤ)
    | none => none

/-!
Numeric UCT selection (`MCTSNode.uct_select_child`), modelled over the reals.
Python floats carry exact small integers here; `math.log` / `math.sqrt` are
modelled by their real counterparts, and `float('inf')` by `⊤` in `EReal`
(for the positive exploration weights in use, `0 + w * inf = inf`).
-/

/-- The statistics of one child as read by `uct_select_child`. -/
structure ChildStat where
  wins : ℚ
  visits : ℕ
deriving DecidableEq

/-- The inner `uct(child)` function of `uct_select_child`: win rate plus
`exploration_weight` times `sqrt(log_visits / child.visits)`; a zero-visit
child has win rate `0` and exploration `float('inf')`. -/
noncomputable def uctValue (log_visits exploration_weight : ℝ) (c : ChildStat) : EReal :=
  if c.visits = 0 then ⊤
  else (((c.wins : ℝ) / (c.visits : ℝ)
    + exploration_weight * Real.sqrt (log_visits / (c.visits : ℝ)) : ℝ) : EReal)

/-- Python `max(children, key=uct)`: first element attaining the maximum. -/
noncomputable def maxByKey (key : ChildStat → EReal) : List ChildStat → Option ChildStat
  | [] => none
  | c :: cs => some (cs.foldl (fun best x => if key best < key x then x else best) c)

/-- Python `min(children, key=uct)`: first element attaining the minimum. -/
noncomputable def minByKey (key : ChildStat → EReal) : List ChildStat → Option ChildStat
  | [] => none
  | c :: cs => some (cs.foldl (fun best x => if key x < key best then x else best) c)

/-- Python `MCTSNode.uct_select_child` on a node's statistics: `log_visits =
log(self.visits)`, then max or min of the `uct` key according to `is_even`;
the `exploration_weight` parameter defaults to `1.0` in the source. -/
noncomputable def uct_select_child (is_even : Bool) (exploration_weight : ℝ)
    (parent_visits : ℕ) (children : List ChildStat) : Option ChildStat :=
  let log_visits := Real.log parent_visits
  if is_even then maxByKey (uctValue log_visits exploration_weight) children
  else minByKey (uctValue log_visits exploration_weight) children

open Classical in
/-- The weight configured in `MCTSPlayer.__init__`: a falsy argument (absent
or zero) yields `sqrt 2`, anything else is kept. -/
noncomputable def config_exploration_weight (arg : Option ℝ) : ℝ :=
  match arg with
  | none => Real.sqrt 2
  | some w => if w = 0 then Real.sqrt 2 else w

open Classical in
/-- The selection call in `MCTSPlayer.get_move`:
`node.uct_select_child(self.exploration_weight)` passes the configured weight
positionally into the `is_even` slot (Python float truthiness), so
`exploration_weight` keeps its default `1.0`. -/
noncomputable def engine_select (w_config : ℝ) (parent_visits : ℕ)
    (children : List ChildStat) : Option ChildStat :=
  uct_select_child (decide (w_config ≠ 0)) 1 parent_visits children

section ListLemmas

/-- Setting a slot beyond the end of the list is a no-op. -/
lemma list_set_oob : ∀ (l : List ℕ) (i v : ℕ), l.length ≤ i → l.set i v = l
  | [], _, _, _ => rfl
  | _ :: _, 0, _, h => by simp at h
  | a :: l, i + 1, v, h => by
    simp only [List.set]
    rw [list_set_oob l i v (by simpa using h)]

/-- Reading back a freshly written in-range slot. -/
lemma list_getD_set_self : ∀ (l : List ℕ) (i v : ℕ), i < l.length → (l.set i v).getD i 0 = v
  | _ :: _, 0, _, _ => rfl
  | a :: l, i + 1, v, h => by
    simp only [List.set, List.getD_cons_succ]
    exact list_getD_set_self l i v (by simpa using h)

/-- Writing one slot leaves every other slot unchanged. -/
lemma list_getD_set_ne : ∀ (l : List ℕ) (i j v : ℕ), i ≠ j → (l.set i v).getD j 0 = l.getD j 0
  | [], _, _, _, _ => rfl
  | _ :: _, 0, 0, _, h => absurd rfl h
  | _ :: _, 0, _ + 1, _, _ => rfl
  | _ :: _, _ + 1, 0, _, _ => rfl
  | a :: l, i + 1, j + 1, v, h => by
    simp only [List.set, List.getD_cons_succ]
    exact list_getD_set_ne l i j v (fun hij => h (by omega))

/-- Writing back the value a slot already holds is a no-op. -/
lemma list_set_getD_self : ∀ (l : List ℕ) (i : ℕ), l.set i (l.getD i 0) = l
  | [], _ => rfl
  | _ :: _, 0 => rfl
  | a :: l, i + 1 => by
    simp only [List.set, List.getD_cons_succ]
    rw [list_set_getD_self l i]

/-- Accounting for the total after overwriting an in-range slot. -/
lemma list_sum_set : ∀ (l : List ℕ) (i v : ℕ), i < l.length →
    (l.set i v).sum + l.getD i 0 = l.sum + v
  | _ :: _, 0, _, _ => by simp [List.set]; omega
  | a :: l, i + 1, v, h => by
    simp only [List.set, List.getD_cons_succ, List.sum_cons]
    have := list_sum_set l i v (by simpa using h)
    omega

end ListLemmas

section BoardLemmas

@[simp] lemma pits_set_stones (b : KalahaBoard) (i v : ℕ) :
    (b.set_stones i v).pits_per_player = b.pits_per_player := rfl

@[simp] lemma pits_add_stones (b : KalahaBoard) (i v : ℕ) :
    (b.add_stones i v).pits_per_player = b.pits_per_player := rfl

@[simp] lemma length_set_stones (b : KalahaBoard) (i v : ℕ) :
    (b.set_stones i v).board.length = b.board.length := by
  simp [KalahaBoard.set_stones]

@[simp] lemma length_add_stones (b : KalahaBoard) (i v : ℕ) :
    (b.add_stones i v).board.length = b.board.length := by
  simp [KalahaBoard.add_stones]

lemma get_stones_set_self (b : KalahaBoard) (i v : ℕ) (h : i < b.board.length) :
    (b.set_stones i v).get_stones i = v :=
  list_getD_set_self _ _ _ h

lemma get_stones_set_ne (b : KalahaBoard) (i j v : ℕ) (h : i ≠ j) :
    (b.set_stones i v).get_stones j = b.get_stones j :=
  list_getD_set_ne _ _ _ _ h

lemma get_stones_add_self (b : KalahaBoard) (i k : ℕ) (h : i < b.board.length) :
    (b.add_stones i k).get_stones i = b.get_stones i + k :=
  get_stones_set_self _ _ _ h

lemma get_stones_add_ne (b : KalahaBoard) (i j k : ℕ) (h : i ≠ j) :
    (b.add_stones i k).get_stones j = b.get_stones j :=
  get_stones_set_ne _ _ _ _ h

/-- Depositing stones never lowers any slot count. -/
lemma get_stones_add_mono (b : KalahaBoard) (i k s : ℕ) :
    b.get_stones s ≤ (b.add_stones i k).get_stones s := by
  by_cases hi : i = s
  · subst hi
    by_cases hlen : i < b.board.length
    · rw [get_stones_add_self _ _ _ hlen]; omega
    · unfold KalahaBoard.add_stones KalahaBoard.set_stones KalahaBoard.get_stones
      rw [list_set_oob _ _ _ (by omega)]
  · rw [get_stones_add_ne _ _ _ _ hi]

lemma boardSum_set (b : KalahaBoard) (i v : ℕ) (h : i < b.board.length) :
    boardSum (b.set_stones i v) + b.get_stones i = boardSum b + v :=
  list_sum_set _ _ _ h

lemma boardSum_add (b : KalahaBoard) (i k : ℕ) (h : i < b.board.length) :
    boardSum (b.add_stones i k) = boardSum b + k := by
  unfold KalahaBoard.add_stones
  have := boardSum_set b i (b.get_stones i + k) h
  omega

/-- Every pit index of a player's row is below `2P + 1`, and for player 1 the
row is nonempty only when `P > 0`; packaged as arithmetic bounds. -/
lemma mem_player_pits_bounds (b : KalahaBoard) (player pit : ℕ) (hp : player < 2)
    (h : pit ∈ b.get_player_pits player) :
    (player = 0 ∧ pit < b.pits_per_player) ∨
      (player = 1 ∧ b.pits_per_player + 1 ≤ pit ∧ pit < b.pits_per_player * 2 + 1) := by
  unfold KalahaBoard.get_player_pits at h
  interval_cases player
  · have h' : pit ∈ List.range b.pits_per_player := by simpa using h
    exact Or.inl ⟨rfl, List.mem_range.mp h'⟩
  · have h' : pit ∈ List.range' (b.pits_per_player + 1) b.pits_per_player := by simpa using h
    rw [List.mem_range'_1] at h'
    exact Or.inr ⟨rfl, h'.1, by omega⟩

/-- Index facts used by the capture branch: landing, opposite pit and own store
are three distinct in-range slots, with the opposite pit in the other row. -/
lemma landing_opposite_facts (b : KalahaBoard) (player landing : ℕ)
    (hw : wfBoard b) (hp : player < 2)
    (hland : landing ∈ b.get_player_pits player) :
    landing < b.board.length ∧
      b.get_opposite_pit landing < b.board.length ∧
      b.get_store player < b.board.length ∧
      landing ≠ b.get_opposite_pit landing ∧
      landing ≠ b.get_store player ∧
      b.get_opposite_pit landing ≠ b.get_store player := by
  have hb := mem_player_pits_bounds b player landing hp hland
  unfold wfBoard at hw
  unfold KalahaBoard.get_opposite_pit KalahaBoard.total_pits KalahaBoard.get_store
  rcases hb with ⟨hpl, hlt⟩ | ⟨hpl, hge, hlt⟩ <;> subst hpl <;> simp <;> omega

end BoardLemmas

section SowLemmas

@[simp] lemma sow_step_pits (b : KalahaBoard) (c o : ℕ) :
    (sow_step b c o).1.pits_per_player = b.pits_per_player := rfl

@[simp] lemma sow_step_length (b : KalahaBoard) (c o : ℕ) :
    (sow_step b c o).1.board.length = b.board.length := by
  simp [sow_step]

/-- The slot visited by one sowing step is always in range. -/
lemma sow_step_lt (b : KalahaBoard) (c o : ℕ) : (sow_step b c o).2 < b.total_pits := by
  unfold sow_step
  have h : 0 < b.total_pits := by unfold KalahaBoard.total_pits; omega
  dsimp only
  split <;> exact Nat.mod_lt _ h

lemma sow_pits (n : ℕ) : ∀ (b : KalahaBoard) (c o : ℕ),
    (sow b n c o).1.pits_per_player = b.pits_per_player := by
  induction n with
  | zero => intro b c o; rfl
  | succ n ih =>
    intro b c o
    rw [sow]
    exact (ih _ _ _).trans (sow_step_pits b c o)

lemma sow_length (n : ℕ) : ∀ (b : KalahaBoard) (c o : ℕ),
    (sow b n c o).1.board.length = b.board.length := by
  induction n with
  | zero => intro b c o; rfl
  | succ n ih =>
    intro n b c
    rw [sow]
    exact (ih _ _ _).trans (sow_step_length _ _ _)

/-- Stepping keeps the total-slots/list-length agreement. -/
lemma sow_step_wflen (b : KalahaBoard) (c o : ℕ) (hlen : b.total_pits = b.board.length) :
    (sow_step b c o).1.total_pits = (sow_step b c o).1.board.length := by
  have h1 : (sow_step b c o).1.total_pits = b.total_pits := by
    unfold KalahaBoard.total_pits
    rw [sow_step_pits]
  rw [h1, sow_step_length]
  exact hlen

/-- Sowing `n` stones deposits exactly `n` stones on the board. -/
lemma sow_sum (n : ℕ) : ∀ (b : KalahaBoard) (c o : ℕ),
    b.total_pits = b.board.length → boardSum (sow b n c o).1 = boardSum b + n := by
  induction n with
  | zero => intro b c o _; rfl
  | succ n ih =>
    intro b c o hlen
    rw [sow]
    have hstep : boardSum (sow_step b c o).1 = boardSum b + 1 := by
      unfold sow_step
      dsimp only
      exact boardSum_add _ _ _ (hlen ▸ sow_step_lt b c o)
    rw [ih _ _ _ (sow_step_wflen b c o hlen), hstep]
    omega

/-- Sowing never lowers any slot count. -/
lemma sow_get_stones_mono (n : ℕ) : ∀ (b : KalahaBoard) (c o s : ℕ),
    b.get_stones s ≤ (sow b n c o).1.get_stones s := by
  induction n with
  | zero => intro b c o s; exact le_refl _
  | succ n ih =>
    intro b c o s
    rw [sow]
    exact le_trans (get_stones_add_mono _ _ _ _) (ih _ _ _ _)

/-- One sowing step never lowers any slot count. -/
lemma sow_step_mono (b : KalahaBoard) (c o s : ℕ) :
    b.get_stones s ≤ (sow_step b c o).1.get_stones s :=
  get_stones_add_mono _ _ _ _

/-- The final deposit of the sowing step lands on the returned slot. -/
lemma sow_step_get_self (b : KalahaBoard) (c o : ℕ)
    (hlen : b.total_pits = b.board.length) :
    (sow_step b c o).1.get_stones (sow_step b c o).2 =
      b.get_stones (sow_step b c o).2 + 1 :=
  get_stones_add_self _ _ _ (hlen ▸ sow_step_lt b c o)

/-- The landing slot receives at least the final deposited stone. -/
lemma sow_landing_add (n : ℕ) : ∀ (b : KalahaBoard) (c o : ℕ),
    0 < n → b.total_pits = b.board.length →
    b.get_stones (sow b n c o).2 + 1 ≤ (sow b n c o).1.get_stones (sow b n c o).2 := by
  induction n with
  | zero => intro b c o h _; omega
  | succ n ih =>
    intro b c o _ hlen
    rw [sow]
    rcases Nat.eq_zero_or_pos n with hn | hn
    · subst hn
      rw [sow]
      dsimp only
      have := sow_step_get_self b c o hlen
      have hm := sow_step_mono b c o (sow_step b c o).2
      omega
    · have h1 := ih (sow_step b c o).1 (sow_step b c o).2 o hn (sow_step_wflen b c o hlen)
      have h2 := sow_step_mono b c o (sow (sow_step b c o).1 n (sow_step b c o).2 o).2
      omega

end SowLemmas

section MakeMoveLemmas

/-- Validity unpacked into its two conditions. -/
lemma is_move_valid_true_iff (b : KalahaBoard) (player pit : ℕ) :
    is_move_valid b player pit = true ↔
      pit ∈ b.get_player_pits player ∧ 0 < b.get_stones pit := by
  simp [is_move_valid]

lemma make_move_pits (b : KalahaBoard) (player pit : ℕ) :
    (make_move b player pit).1.pits_per_player = b.pits_per_player := by
  unfold make_move
  split
  · rfl
  · dsimp only
    split
    · exact sow_pits _ _ _ _
    · split
      · split
        · exact sow_pits _ _ _ _
        · exact sow_pits _ _ _ _
      · exact sow_pits _ _ _ _

lemma make_move_length (b : KalahaBoard) (player pit : ℕ) :
    (make_move b player pit).1.board.length = b.board.length := by
  unfold make_move
  split
  · rfl
  · dsimp only
    split
    · simp [sow_length]
    · split
      · split
        · simp [sow_length]
        · simp [sow_length]
      · simp [sow_length]

/-- A well-formed board stays well-formed across a move. -/
lemma make_move_wf (b : KalahaBoard) (player pit : ℕ) (hw : wfBoard b) :
    wfBoard (make_move b player pit).1 := by
  unfold wfBoard at *
  rw [make_move_length, make_move_pits]
  exact hw

/-- A valid move moves stones around but never creates or destroys any: the
board total is unchanged. -/
lemma make_move_boardSum (b : KalahaBoard) (player pit : ℕ)
    (hw : wfBoard b) (hp : player < 2) (hv : is_move_valid b player pit = true) :
    boardSum (make_move b player pit).1 = boardSum b := by
  obtain ⟨hmem, hpos⟩ := (is_move_valid_true_iff b player pit).mp hv
  have hbounds := mem_player_pits_bounds b player pit hp hmem
  have hwl : b.board.length = b.pits_per_player * 2 + 2 := hw
  have hpitlt : pit < b.board.length := by
    rcases hbounds with ⟨_, h⟩ | ⟨_, h1, h2⟩ <;> omega
  have hsum1 : boardSum (b.set_stones pit 0) + b.get_stones pit = boardSum b :=
    (boardSum_set b pit 0 hpitlt).trans (by omega)
  have hlen1 : (b.set_stones pit 0).total_pits = (b.set_stones pit 0).board.length := by
    unfold KalahaBoard.total_pits
    simp [hwl]
  have hsum2 : boardSum (sowedBoard b player pit).1 = boardSum b := by
    unfold sowedBoard
    rw [sow_sum _ _ _ _ hlen1]
    omega
  have hlen2 : (sowedBoard b player pit).1.board.length = b.board.length := by
    unfold sowedBoard
    rw [sow_length]
    simp
  unfold make_move
  rw [if_neg (by simp [hv])]
  dsimp only
  rw [show sow (b.set_stones pit 0) (b.get_stones pit) pit (b.get_store (1 - player)) =
    sowedBoard b player pit from rfl]
  split
  · exact hsum2
  · split
    · next hcond =>
      obtain ⟨hland, hone⟩ := hcond
      obtain ⟨hl1, hl2, hl3, hd1, hd2, hd3⟩ :=
        landing_opposite_facts b player (sowedBoard b player pit).2 hw hp hland
      split
      · next hopp =>
        set b2 := (sowedBoard b player pit).1 with hb2
        set landing := (sowedBoard b player pit).2 with hlanding
        set opp := b.get_opposite_pit landing with hopp2
        set st := b.get_store player with hst
        have hlen2' : b2.board.length = b.board.length := hlen2
        have h3 : boardSum (b2.add_stones st (b2.get_stones opp + 1)) =
            boardSum b2 + (b2.get_stones opp + 1) :=
          boardSum_add _ _ _ (by omega)
        have hg3 : (b2.add_stones st (b2.get_stones opp + 1)).get_stones landing =
            b2.get_stones landing :=
          get_stones_add_ne _ _ _ _ (fun h => hd2 h.symm)
        have h4 : boardSum ((b2.add_stones st (b2.get_stones opp + 1)).set_stones landing 0) +
            (b2.add_stones st (b2.get_stones opp + 1)).get_stones landing =
            boardSum (b2.add_stones st (b2.get_stones opp + 1)) + 0 :=
          boardSum_set _ _ _ (by simp; omega)
        have hg4 : (((b2.add_stones st (b2.get_stones opp + 1)).set_stones landing 0)).get_stones opp =
            b2.get_stones opp := by
          rw [get_stones_set_ne _ _ _ _ hd1]
          exact get_stones_add_ne _ _ _ _ (fun h => hd3 h.symm)
        have h5 : boardSum ((((b2.add_stones st (b2.get_stones opp + 1)).set_stones landing 0)).set_stones opp 0) +
            (((b2.add_stones st (b2.get_stones opp + 1)).set_stones landing 0)).get_stones opp =
            boardSum (((b2.add_stones st (b2.get_stones opp + 1)).set_stones landing 0)) + 0 :=
          boardSum_set _ _ _ (by simp; omega)
        dsimp only
        omega
      · exact hsum2
    · exact hsum2

end MakeMoveLemmas

section FinishLemmas

/-- Sums of pointwise-equal maps agree. -/
lemma list_map_sum_congr : ∀ (l : List ℕ) (f g : ℕ → ℕ),
    (∀ x ∈ l, f x = g x) → (l.map f).sum = (l.map g).sum
  | [], _, _, _ => rfl
  | a :: l, f, g, h => by
    simp only [List.map_cons, List.sum_cons]
    rw [h a (by simp), list_map_sum_congr l f g (fun x hx => h x (by simp [hx]))]

/-- Membership in player 0's row, arithmetically. -/
lemma mem_player_pits_zero (b : KalahaBoard) (pit : ℕ) :
    pit ∈ b.get_player_pits 0 ↔ pit < b.pits_per_player := by
  simp [KalahaBoard.get_player_pits, List.mem_range]

/-- Membership in player 1's row, arithmetically. -/
lemma mem_player_pits_one (b : KalahaBoard) (pit : ℕ) :
    pit ∈ b.get_player_pits 1 ↔
      b.pits_per_player + 1 ≤ pit ∧ pit < b.pits_per_player * 2 + 1 := by
  simp [KalahaBoard.get_player_pits, List.mem_range'_1]
  omega

/-- A player's row has no repeated indices. -/
lemma player_pits_nodup (b : KalahaBoard) (player : ℕ) :
    (b.get_player_pits player).Nodup := by
  unfold KalahaBoard.get_player_pits
  split
  · exact List.nodup_range _
  · exact List.nodup_range' _ _

/-- Effect of the sweeping fold of `finish_game` on one row: the store
accumulates the row, the row zeroes out, everything else is untouched. -/
lemma sweep_fold (player : ℕ) : ∀ (pits : List ℕ) (b : KalahaBoard),
    b.get_store player < b.board.length →
    (∀ p ∈ pits, p < b.board.length ∧ p ≠ b.get_store player) →
    pits.Nodup →
    ((pits.foldl
        (fun bb pit => (bb.add_stones (bb.get_store player) (bb.get_stones pit)).set_stones pit 0)
        b).pits_per_player = b.pits_per_player ∧
     (pits.foldl
        (fun bb pit => (bb.add_stones (bb.get_store player) (bb.get_stones pit)).set_stones pit 0)
        b).board.length = b.board.length ∧
     boardSum (pits.foldl
        (fun bb pit => (bb.add_stones (bb.get_store player) (bb.get_stones pit)).set_stones pit 0)
        b) = boardSum b ∧
     (pits.foldl
        (fun bb pit => (bb.add_stones (bb.get_store player) (bb.get_stones pit)).set_stones pit 0)
        b).get_stones (b.get_store player) =
       b.get_stones (b.get_store player) + (pits.map (fun p => b.get_stones p)).sum ∧
     (∀ p ∈ pits, (pits.foldl
        (fun bb pit => (bb.add_stones (bb.get_store player) (bb.get_stones pit)).set_stones pit 0)
        b).get_stones p = 0) ∧
     (∀ s, s ∉ pits → s ≠ b.get_store player → (pits.foldl
        (fun bb pit => (bb.add_stones (bb.get_store player) (bb.get_stones pit)).set_stones pit 0)
        b).get_stones s = b.get_stones s)) := by
  intro pits
  induction pits with
  | nil =>
    intro b _ _ _
    refine ⟨rfl, rfl, rfl, by simp, by simp, fun s _ _ => rfl⟩
  | cons a pits ih =>
    intro b hst hall hnd
    have ha_lt : a < b.board.length := (hall a (by simp)).1
    have ha_ne : a ≠ b.get_store player := (hall a (by simp)).2
    have ha_notmem : a ∉ pits := (List.nodup_cons.mp hnd).1
    have hnd' : pits.Nodup := (List.nodup_cons.mp hnd).2
    set b1 := (b.add_stones (b.get_store player) (b.get_stones a)).set_stones a 0 with hb1
    have hstore1 : b1.get_store player = b.get_store player := rfl
    have hpits1 : b1.pits_per_player = b.pits_per_player := rfl
    have hlen1 : b1.board.length = b.board.length := by simp [hb1]
    have hget_add_a : (b.add_stones (b.get_store player) (b.get_stones a)).get_stones a =
        b.get_stones a := get_stones_add_ne _ _ _ _ (fun h => ha_ne h.symm)
    have hsum1 : boardSum b1 = boardSum b := by
      have h1 : boardSum (b.add_stones (b.get_store player) (b.get_stones a)) =
          boardSum b + b.get_stones a := boardSum_add _ _ _ hst
      have h2 := boardSum_set (b.add_stones (b.get_store player) (b.get_stones a)) a 0
        (by simp; omega)
      rw [hget_add_a, ← hb1] at h2
      omega
    have hst1 : b1.get_stones (b.get_store player) =
        b.get_stones (b.get_store player) + b.get_stones a := by
      rw [hb1, get_stones_set_ne _ _ _ _ ha_ne]
      exact get_stones_add_self _ _ _ hst
    have ha1 : b1.get_stones a = 0 :=
      get_stones_set_self _ _ _ (by simp [ha_lt])
    have hother1 : ∀ s, s ≠ a → s ≠ b.get_store player →
        b1.get_stones s = b.get_stones s := by
      intro s hsa hsst
      rw [hb1, get_stones_set_ne _ _ _ _ (fun h => hsa h.symm),
        get_stones_add_ne _ _ _ _ (fun h => hsst h.symm)]
    obtain ⟨ipits, ilen, isum, istore, izero, iother⟩ := ih b1
      (by rw [hstore1, hlen1]; exact hst)
      (fun p hp => by
        rw [hstore1, hlen1]
        exact hall p (List.mem_cons_of_mem a hp))
      hnd'
    rw [hstore1] at istore
    have hmapeq : (pits.map (fun p => b1.get_stones p)).sum =
        (pits.map (fun p => b.get_stones p)).sum :=
      list_map_sum_congr pits _ _ (fun p hp =>
        hother1 p (fun h => ha_notmem (h ▸ hp)) (hall p (List.mem_cons_of_mem a hp)).2)
    simp only [List.foldl_cons, List.map_cons, List.sum_cons]
    refine ⟨ipits.trans hpits1, ilen.trans hlen1, isum.trans hsum1, ?_, ?_, ?_⟩
    · rw [istore, hst1, hmapeq]
      omega
    · intro p hp
      rcases List.mem_cons.mp hp with hpa | hpp
      · subst hpa
        rw [iother p ha_notmem ha_ne]
        exact ha1
      · exact izero p hpp
    · intro s hs hsst
      have hsa : s ≠ a := fun h => hs (h ▸ List.mem_cons_self a pits)
      have hsp : s ∉ pits := fun h => hs (List.mem_cons_of_mem a h)
      rw [iother s hsp hsst]
      exact hother1 s hsa hsst

/-- Store indices stay inside a well-formed board. -/
lemma get_store_lt (b : KalahaBoard) (player : ℕ) (hw : wfBoard b) :
    b.get_store player < b.board.length := by
  unfold KalahaBoard.get_store
  unfold wfBoard at hw
  split <;> omega

lemma get_store_congr (a b : KalahaBoard) (h : a.pits_per_player = b.pits_per_player)
    (player : ℕ) : a.get_store player = b.get_store player := by
  unfold KalahaBoard.get_store
  rw [h]

lemma get_store_zero (b : KalahaBoard) : b.get_store 0 = b.pits_per_player := by
  simp [KalahaBoard.get_store]

lemma get_store_one (b : KalahaBoard) : b.get_store 1 = b.pits_per_player * 2 + 1 := by
  simp [KalahaBoard.get_store]

lemma get_player_pits_congr (a b : KalahaBoard) (h : a.pits_per_player = b.pits_per_player)
    (player : ℕ) : a.get_player_pits player = b.get_player_pits player := by
  unfold KalahaBoard.get_player_pits
  rw [h]

/-- `sweep_row` as `finish_game` runs it: store gains the row total, the row
is zeroed, all other slots keep their counts. -/
lemma sweep_row_spec (b : KalahaBoard) (player : ℕ) (hw : wfBoard b) (hp : player < 2) :
    (sweep_row b player).pits_per_player = b.pits_per_player ∧
    (sweep_row b player).board.length = b.board.length ∧
    boardSum (sweep_row b player) = boardSum b ∧
    (sweep_row b player).get_stones (b.get_store player) =
      b.get_stones (b.get_store player) +
        ((b.get_player_pits player).map (fun p => b.get_stones p)).sum ∧
    (∀ p ∈ b.get_player_pits player, (sweep_row b player).get_stones p = 0) ∧
    (∀ s, s ∉ b.get_player_pits player → s ≠ b.get_store player →
      (sweep_row b player).get_stones s = b.get_stones s) := by
  have hall : ∀ p ∈ b.get_player_pits player, p < b.board.length ∧ p ≠ b.get_store player := by
    intro p hpmem
    have hb := mem_player_pits_bounds b player p hp hpmem
    unfold wfBoard at hw
    rcases hb with ⟨h0, hlt⟩ | ⟨h1, hge, hlt⟩
    · subst h0
      rw [get_store_zero]
      omega
    · subst h1
      rw [get_store_one]
      omega
  exact sweep_fold player (b.get_player_pits player) b (get_store_lt b player hw) hall
    (player_pits_nodup b player)

/-- Full effect of `finish_game` on a well-formed board: stone total kept,
both rows zeroed, each store gains exactly its own row's former content. -/
lemma finish_game_spec (b : KalahaBoard) (hw : wfBoard b) :
    (finish_game b).pits_per_player = b.pits_per_player ∧
    (finish_game b).board.length = b.board.length ∧
    boardSum (finish_game b) = boardSum b ∧
    (∀ p ∈ b.get_player_pits 0, (finish_game b).get_stones p = 0) ∧
    (∀ p ∈ b.get_player_pits 1, (finish_game b).get_stones p = 0) ∧
    (finish_game b).get_stones (b.get_store 0) =
      b.get_stones (b.get_store 0) +
        ((b.get_player_pits 0).map (fun p => b.get_stones p)).sum ∧
    (finish_game b).get_stones (b.get_store 1) =
      b.get_stones (b.get_store 1) +
        ((b.get_player_pits 1).map (fun p => b.get_stones p)).sum := by
  obtain ⟨c1, c2, c3, c4, c5, c6⟩ := sweep_row_spec b 0 hw (by omega)
  set c := sweep_row b 0 with hc
  have hwc : wfBoard c := by
    unfold wfBoard at *
    rw [c2, c1]
    exact hw
  obtain ⟨d1, d2, d3, d4, d5, d6⟩ := sweep_row_spec c 1 hwc (by omega)
  have hpits : c.get_player_pits 1 = b.get_player_pits 1 := get_player_pits_congr c b c1 1
  have hst1c : c.get_store 1 = b.get_store 1 := get_store_congr c b c1 1
  have hwb : b.board.length = b.pits_per_player * 2 + 2 := hw
  have hstore0 : b.get_store 0 = b.pits_per_player := by
    unfold KalahaBoard.get_store
    simp
  have hstore1 : b.get_store 1 = b.pits_per_player * 2 + 1 := by
    unfold KalahaBoard.get_store
    simp
  have hfg : finish_game b = sweep_row c 1 := by
    unfold finish_game
    rw [← hc]
  rw [hfg]
  refine ⟨d1.trans c1, d2.trans c2, d3.trans c3, ?_, ?_, ?_, ?_⟩
  · intro p hp0
    have hplt : p < b.pits_per_player := (mem_player_pits_zero b p).mp hp0
    rw [d6 p (by rw [hpits, mem_player_pits_one]; omega) (by rw [hst1c, hstore1]; omega)]
    exact c5 p hp0
  · intro p hp1
    exact d5 p (by rw [hpits]; exact hp1)
  · rw [d6 (b.get_store 0)
      (by rw [hpits, mem_player_pits_one, hstore0]; omega)
      (by rw [hst1c, hstore1, hstore0]; omega)]
    exact c4
  · have hmap : ((c.get_player_pits 1).map (fun p => c.get_stones p)).sum =
        ((b.get_player_pits 1).map (fun p => b.get_stones p)).sum := by
      rw [hpits]
      refine list_map_sum_congr _ _ _ (fun p hp1 => ?_)
      have hpb := (mem_player_pits_one b p).mp hp1
      exact c6 p (by rw [mem_player_pits_zero]; omega) (by rw [hstore0]; omega)
    have hsc : c.get_stones (b.get_store 1) = b.get_stones (b.get_store 1) :=
      c6 (b.get_store 1) (by rw [mem_player_pits_zero, hstore1]; omega)
        (by rw [hstore0, hstore1]; omega)
    rw [← hst1c, d4, hst1c, hsc, hmap]

lemma finish_game_boardSum (b : KalahaBoard) (hw : wfBoard b) :
    boardSum (finish_game b) = boardSum b :=
  (finish_game_spec b hw).2.2.1

/-- Adding zero stones is a no-op on the whole structure. -/
lemma add_stones_zero (b : KalahaBoard) (i : ℕ) : b.add_stones i 0 = b := by
  unfold KalahaBoard.add_stones KalahaBoard.set_stones KalahaBoard.get_stones
  cases b with
  | mk P l =>
    simp only [Nat.add_zero]
    rw [list_set_getD_self]

/-- Writing zero into an already-empty slot is a no-op on the structure. -/
lemma set_stones_zero_of_zero (b : KalahaBoard) (i : ℕ) (h : b.get_stones i = 0) :
    b.set_stones i 0 = b := by
  unfold KalahaBoard.set_stones
  unfold KalahaBoard.get_stones at h
  cases b with
  | mk P l =>
    simp only at h ⊢
    rw [← h, list_set_getD_self]

/-- Sweeping a row that is already empty changes nothing. -/
lemma fold_sweep_id (player : ℕ) : ∀ (pits : List ℕ) (b : KalahaBoard),
    (∀ p ∈ pits, b.get_stones p = 0) →
    pits.foldl
      (fun bb pit => (bb.add_stones (bb.get_store player) (bb.get_stones pit)).set_stones pit 0)
      b = b
  | [], _, _ => rfl
  | a :: pits, b, h => by
    simp only [List.foldl_cons]
    rw [h a (by simp), add_stones_zero, set_stones_zero_of_zero b a (h a (by simp))]
    exact fold_sweep_id player pits b (fun p hp => h p (by simp [hp]))

lemma sweep_row_id (b : KalahaBoard) (player : ℕ)
    (hz : ∀ p ∈ b.get_player_pits player, b.get_stones p = 0) :
    sweep_row b player = b :=
  fold_sweep_id player (b.get_player_pits player) b hz

/-- `finish_game` is idempotent on every well-formed board. -/
lemma finish_game_idem (b : KalahaBoard) (hw : wfBoard b) :
    finish_game (finish_game b) = finish_game b := by
  obtain ⟨f1, _, _, f4, f5, _, _⟩ := finish_game_spec b hw
  have hrow0 : (finish_game b).get_player_pits 0 = b.get_player_pits 0 :=
    get_player_pits_congr _ _ f1 0
  have hrow1 : (finish_game b).get_player_pits 1 = b.get_player_pits 1 :=
    get_player_pits_congr _ _ f1 1
  show sweep_row (sweep_row (finish_game b) 0) 1 = finish_game b
  rw [sweep_row_id (finish_game b) 0 (fun p hp => f4 p (hrow0 ▸ hp)),
    sweep_row_id (finish_game b) 1 (fun p hp => f5 p (hrow1 ▸ hp))]

end FinishLemmas

section InitReachableLemmas

lemma initBoard_wf (P S : ℕ) : wfBoard (initBoard P S) := by
  unfold wfBoard initBoard
  simp

lemma list_sum_map_range (f : ℕ → ℕ) : ∀ n, ((List.range n).map f).sum = ∑ i ∈ Finset.range n, f i := by
  intro n
  induction n with
  | zero => rfl
  | succ n ih =>
    rw [List.range_succ, List.map_append, List.sum_append, ih, Finset.sum_range_succ]
    simp

/-- The fresh board holds exactly `2 * P * S` stones. -/
lemma initBoard_sum (P S : ℕ) : boardSum (initBoard P S) = 2 * P * S := by
  unfold boardSum initBoard
  dsimp only
  rw [list_sum_map_range]
  have key : ∀ i ∈ Finset.range (P * 2 + 2),
      (if i = P ∨ i = P * 2 + 1 then 0 else S) +
        ((if i = P then S else 0) + (if i = P * 2 + 1 then S else 0)) = S := by
    intro i _
    by_cases h1 : i = P
    · have h2 : ¬ (P = P * 2 + 1) := by omega
      simp [h1, h2]
    · by_cases h2 : i = P * 2 + 1
      · have h3 : ¬ (P * 2 + 1 = P) := by omega
        simp [h1, h2, h3]
      · simp [h1, h2]
  have h1 := Finset.sum_congr rfl key
  rw [Finset.sum_add_distrib, Finset.sum_add_distrib,
    Finset.sum_ite_eq' (Finset.range (P * 2 + 2)) P (fun _ => S),
    Finset.sum_ite_eq' (Finset.range (P * 2 + 2)) (P * 2 + 1) (fun _ => S),
    if_pos (Finset.mem_range.mpr (by omega)), if_pos (Finset.mem_range.mpr (by omega)),
    Finset.sum_const, Finset.card_range, smul_eq_mul] at h1
  have hexp : (P * 2 + 2) * S = 2 * P * S + S + S := by ring
  rw [hexp, ← Nat.add_assoc] at h1
  exact Nat.add_right_cancel (Nat.add_right_cancel h1)

/-- Every reachable board keeps its geometry and its stone total. -/
lemma reachable_inv (P S : ℕ) (b : KalahaBoard) (h : Reachable P S b) :
    b.pits_per_player = P ∧ wfBoard b ∧ boardSum b = 2 * P * S := by
  induction h with
  | init => exact ⟨rfl, initBoard_wf P S, initBoard_sum P S⟩
  | move b player pit hb hp hv ih =>
    obtain ⟨h1, h2, h3⟩ := ih
    exact ⟨(make_move_pits _ _ _).trans h1, make_move_wf _ _ _ h2,
      (make_move_boardSum _ _ _ h2 hp hv).trans h3⟩

end InitReachableLemmas

/-- C4 -- Stone conservation: every board reachable from the initial board by
legal moves through `make_move` holds exactly `2 * pitsPerPlayer *
stonesPerPit` stones, also after `finish_game`; and neither `make_move` on a
valid move nor `finish_game` creates or destroys stones. -/
theorem stone_conservation (P S : ℕ) (b bm : KalahaBoard) (player pit : ℕ)
    (hreach : Reachable P S b) (hw : wfBoard bm) (hp : player < 2)
    (hv : is_move_valid bm player pit = true) :
    boardSum b = 2 * P * S ∧
    boardSum (finish_game b) = 2 * P * S ∧
    boardSum (make_move bm player pit).1 = boardSum bm ∧
    boardSum (finish_game bm) = boardSum bm := by
  obtain ⟨h1, h2, h3⟩ := reachable_inv P S b hreach
  exact ⟨h3, (finish_game_boardSum b h2).trans h3, make_move_boardSum bm player pit hw hp hv,
    finish_game_boardSum bm hw⟩

/-- Witness for C4 at a concrete input: the fresh 1-pit, 2-stone board. -/
theorem stone_conservation_witness :
    Reachable 1 2 (initBoard 1 2) ∧ wfBoard (initBoard 1 2) ∧ (0 : ℕ) < 2 ∧
      is_move_valid (initBoard 1 2) 0 0 = true ∧
      (boardSum (initBoard 1 2) = 2 * 1 * 2 ∧
       boardSum (finish_game (initBoard 1 2)) = 2 * 1 * 2 ∧
       boardSum (make_move (initBoard 1 2) 0 0).1 = boardSum (initBoard 1 2) ∧
       boardSum (finish_game (initBoard 1 2)) = boardSum (initBoard 1 2)) :=
  ⟨Reachable.init, by decide, by decide, by decide,
    stone_conservation 1 2 (initBoard 1 2) (initBoard 1 2) 0 0 Reachable.init
      (by decide) (by decide) (by decide)⟩

/-- C8 -- After `finish_game` every pit of both rows is empty, each player's
store has gained exactly the stones its own row held before the call, and
`finish_game` is idempotent. -/
theorem finishGame_sweeps_and_idem (b : KalahaBoard) (hw : wfBoard b) :
    (∀ player < 2, ∀ p ∈ b.get_player_pits player, (finish_game b).get_stones p = 0) ∧
    (∀ player < 2, (finish_game b).get_stones (b.get_store player) =
      b.get_stones (b.get_store player) +
        ((b.get_player_pits player).map (fun p => b.get_stones p)).sum) ∧
    finish_game (finish_game b) = finish_game b := by
  obtain ⟨_, _, _, f4, f5, f6, f7⟩ := finish_game_spec b hw
  refine ⟨?_, ?_, finish_game_idem b hw⟩
  · intro player hpl
    interval_cases player
    · exact f4
    · exact f5
  · intro player hpl
    interval_cases player
    · exact f6
    · exact f7

/-- Witness for C8 at a concrete input: a 2-pit board mid-game. -/
theorem finishGame_sweeps_and_idem_witness :
    wfBoard ⟨2, [3, 0, 1, 2, 5, 4]⟩ ∧
      ((∀ player < 2, ∀ p ∈ (⟨2, [3, 0, 1, 2, 5, 4]⟩ : KalahaBoard).get_player_pits player,
          (finish_game ⟨2, [3, 0, 1, 2, 5, 4]⟩).get_stones p = 0) ∧
       (∀ player < 2, (finish_game ⟨2, [3, 0, 1, 2, 5, 4]⟩).get_stones
            ((⟨2, [3, 0, 1, 2, 5, 4]⟩ : KalahaBoard).get_store player) =
          (⟨2, [3, 0, 1, 2, 5, 4]⟩ : KalahaBoard).get_stones
            ((⟨2, [3, 0, 1, 2, 5, 4]⟩ : KalahaBoard).get_store player) +
            (((⟨2, [3, 0, 1, 2, 5, 4]⟩ : KalahaBoard).get_player_pits player).map
              (fun p => (⟨2, [3, 0, 1, 2, 5, 4]⟩ : KalahaBoard).get_stones p)).sum) ∧
       finish_game (finish_game ⟨2, [3, 0, 1, 2, 5, 4]⟩) = finish_game ⟨2, [3, 0, 1, 2, 5, 4]⟩) :=
  ⟨by decide, finishGame_sweeps_and_idem ⟨2, [3, 0, 1, 2, 5, 4]⟩ (by decide)⟩

/-- C5 -- `make_move` raises the invalid-move error (modelled by a `none`
second component) if and only if the chosen pit is not in the mover's own row
or holds zero stones, for every board and both players. -/
theorem makeMove_error_iff (b : KalahaBoard) (player pit : ℕ) (_hp : player < 2) :
    (make_move b player pit).2 = none ↔
      (pit ∉ b.get_player_pits player ∨ b.get_stones pit = 0) := by
  rw [← is_move_valid_false_iff]
  constructor
  · intro h
    by_cases hv : is_move_valid b player pit = false
    · exact hv
    · obtain ⟨e, he⟩ := make_move_valid_some (by simpa using hv)
      rw [he] at h; cases h
  · intro hv
    rw [make_move_invalid hv]

/-- Witness for C5 at a concrete input: on the fresh 1-pit board, player 0
choosing the store slot (index 1) is rejected. -/
theorem makeMove_error_iff_witness :
    (0 : ℕ) < 2 ∧
      ((make_move (initBoard 1 1) 0 1).2 = none ↔
        ((1 : ℕ) ∉ (initBoard 1 1).get_player_pits 0 ∨ (initBoard 1 1).get_stones 1 = 0)) :=
  ⟨by decide, makeMove_error_iff (initBoard 1 1) 0 1 (by decide)⟩

/-- C10 -- `make_move` is atomic on failure: when it raises the invalid-move
error, the board it leaves behind is exactly the input board, because
validation completes before any mutation begins. -/
theorem makeMove_atomic_on_error (b : KalahaBoard) (player pit : ℕ)
    (h : (make_move b player pit).2 = none) : (make_move b player pit).1 = b := by
  by_cases hv : is_move_valid b player pit = false
  · rw [make_move_invalid hv]
  · obtain ⟨e, he⟩ := make_move_valid_some (by simpa using hv)
    rw [he] at h; cases h

/-- Witness for C10 at a concrete input: player 0 picking the empty store slot
of the fresh 1-pit board fails and leaves the board untouched. -/
theorem makeMove_atomic_on_error_witness :
    (make_move (initBoard 1 1) 0 1).2 = none ∧
      (make_move (initBoard 1 1) 0 1).1 = initBoard 1 1 :=
  ⟨by decide, makeMove_atomic_on_error (initBoard 1 1) 0 1 (by decide)⟩

/-- C6 -- The capture rule: when a legal move's last stone lands in the
mover's own row in a slot then holding exactly one stone, with the opposite
slot at `totalSlots - 2 - landing`: a nonempty opposite slot is captured
(store gains `opposite + 1`, both slots zeroed, all other slots as after
sowing), an empty opposite slot leaves the board exactly as after sowing. -/
theorem capture_rule (b b2 : KalahaBoard) (player pit landing : ℕ)
    (hw : wfBoard b) (hp : player < 2)
    (hv : is_move_valid b player pit = true)
    (hb2 : b2 = (sowedBoard b player pit).1)
    (hlanding : landing = (sowedBoard b player pit).2)
    (hland : landing ∈ b.get_player_pits player)
    (h1 : b2.get_stones landing = 1) :
    (make_move b player pit).2 = some false ∧
    (0 < b2.get_stones (b.get_opposite_pit landing) →
      (make_move b player pit).1.get_stones (b.get_store player) =
        b2.get_stones (b.get_store player) + b2.get_stones (b.get_opposite_pit landing) + 1 ∧
      (make_move b player pit).1.get_stones landing = 0 ∧
      (make_move b player pit).1.get_stones (b.get_opposite_pit landing) = 0 ∧
      (∀ i, i ≠ landing → i ≠ b.get_opposite_pit landing → i ≠ b.get_store player →
        (make_move b player pit).1.get_stones i = b2.get_stones i)) ∧
    (b2.get_stones (b.get_opposite_pit landing) = 0 → (make_move b player pit).1 = b2) := by
  subst hb2 hlanding
  obtain ⟨hl1, hl2, hl3, hd1, hd2, hd3⟩ :=
    landing_opposite_facts b player (sowedBoard b player pit).2 hw hp hland
  have hlen2 : (sowedBoard b player pit).1.board.length = b.board.length := by
    unfold sowedBoard
    rw [sow_length]
    simp
  have hmm : make_move b player pit =
      (if 0 < (sowedBoard b player pit).1.get_stones
          (b.get_opposite_pit (sowedBoard b player pit).2) then
        ((((sowedBoard b player pit).1.add_stones (b.get_store player)
            ((sowedBoard b player pit).1.get_stones
              (b.get_opposite_pit (sowedBoard b player pit).2) + 1)).set_stones
          (sowedBoard b player pit).2 0).set_stones
          (b.get_opposite_pit (sowedBoard b player pit).2) 0, some false)
      else ((sowedBoard b player pit).1, some false)) := by
    unfold make_move
    rw [if_neg (by simp [hv])]
    dsimp only
    rw [show sow (b.set_stones pit 0) (b.get_stones pit) pit (b.get_store (1 - player)) =
      sowedBoard b player pit from rfl]
    rw [if_neg hd2, if_pos ⟨hland, h1⟩]
  rw [hmm]
  split
  · next hopp =>
    refine ⟨rfl, fun _ => ⟨?_, ?_, ?_, ?_⟩, fun hz => absurd hz (by omega)⟩
    · rw [get_stones_set_ne _ _ _ _ hd3, get_stones_set_ne _ _ _ _ hd2,
        get_stones_add_self _ _ _ (by omega)]
      omega
    · rw [get_stones_set_ne _ _ _ _ (fun h => hd1 h.symm),
        get_stones_set_self _ _ _ (by simp [hlen2]; omega)]
    · rw [get_stones_set_self _ _ _ (by simp [hlen2]; omega)]
    · intro i hi1 hi2 hi3
      rw [get_stones_set_ne _ _ _ _ (fun h => hi2 h.symm),
        get_stones_set_ne _ _ _ _ (fun h => hi1 h.symm),
        get_stones_add_ne _ _ _ _ (fun h => hi3 h.symm)]
  · next hopp =>
    exact ⟨rfl, fun hpos => absurd hpos hopp, fun _ => rfl⟩

/-- Witness for C6 at a concrete input: on `[1,0,0,5,2,0]` (P = 2) player 0
plays pit 0; the stone lands in empty own pit 1, opposite pit 3 holds 5, so
the store gains 6 and both pits are cleared. -/
theorem capture_rule_witness :
    wfBoard ⟨2, [1, 0, 0, 5, 2, 0]⟩ ∧ (0 : ℕ) < 2 ∧
    is_move_valid ⟨2, [1, 0, 0, 5, 2, 0]⟩ 0 0 = true ∧
    (⟨2, [0, 1, 0, 5, 2, 0]⟩ : KalahaBoard) = (sowedBoard ⟨2, [1, 0, 0, 5, 2, 0]⟩ 0 0).1 ∧
    (1 : ℕ) = (sowedBoard ⟨2, [1, 0, 0, 5, 2, 0]⟩ 0 0).2 ∧
    (1 : ℕ) ∈ (⟨2, [1, 0, 0, 5, 2, 0]⟩ : KalahaBoard).get_player_pits 0 ∧
    (⟨2, [0, 1, 0, 5, 2, 0]⟩ : KalahaBoard).get_stones 1 = 1 ∧
    ((make_move ⟨2, [1, 0, 0, 5, 2, 0]⟩ 0 0).2 = some false ∧
     (0 < (⟨2, [0, 1, 0, 5, 2, 0]⟩ : KalahaBoard).get_stones
        ((⟨2, [1, 0, 0, 5, 2, 0]⟩ : KalahaBoard).get_opposite_pit 1) →
       (make_move ⟨2, [1, 0, 0, 5, 2, 0]⟩ 0 0).1.get_stones
          ((⟨2, [1, 0, 0, 5, 2, 0]⟩ : KalahaBoard).get_store 0) =
         (⟨2, [0, 1, 0, 5, 2, 0]⟩ : KalahaBoard).get_stones
            ((⟨2, [1, 0, 0, 5, 2, 0]⟩ : KalahaBoard).get_store 0) +
           (⟨2, [0, 1, 0, 5, 2, 0]⟩ : KalahaBoard).get_stones
             ((⟨2, [1, 0, 0, 5, 2, 0]⟩ : KalahaBoard).get_opposite_pit 1) + 1 ∧
       (make_move ⟨2, [1, 0, 0, 5, 2, 0]⟩ 0 0).1.get_stones 1 = 0 ∧
       (make_move ⟨2, [1, 0, 0, 5, 2, 0]⟩ 0 0).1.get_stones
          ((⟨2, [1, 0, 0, 5, 2, 0]⟩ : KalahaBoard).get_opposite_pit 1) = 0 ∧
       (∀ i, i ≠ 1 → i ≠ (⟨2, [1, 0, 0, 5, 2, 0]⟩ : KalahaBoard).get_opposite_pit 1 →
          i ≠ (⟨2, [1, 0, 0, 5, 2, 0]⟩ : KalahaBoard).get_store 0 →
          (make_move ⟨2, [1, 0, 0, 5, 2, 0]⟩ 0 0).1.get_stones i =
            (⟨2, [0, 1, 0, 5, 2, 0]⟩ : KalahaBoard).get_stones i)) ∧
     ((⟨2, [0, 1, 0, 5, 2, 0]⟩ : KalahaBoard).get_stones
        ((⟨2, [1, 0, 0, 5, 2, 0]⟩ : KalahaBoard).get_opposite_pit 1) = 0 →
       (make_move ⟨2, [1, 0, 0, 5, 2, 0]⟩ 0 0).1 = ⟨2, [0, 1, 0, 5, 2, 0]⟩)) :=
  ⟨by decide, by decide, by decide, by decide, by decide, by decide, by decide,
    capture_rule ⟨2, [1, 0, 0, 5, 2, 0]⟩ ⟨2, [0, 1, 0, 5, 2, 0]⟩ 0 0 1
      (by decide) (by decide) (by decide) (by decide) (by decide) (by decide) (by decide)⟩

/-- C7 (amended) -- When a legal move's last stone lands in the mover's own
row in a slot then holding exactly one stone, that slot held zero stones
before the move began, unless the landing slot is the lifted pit itself (the
sowing wrapped all the way around), which by legality held stones. -/
theorem landing_one_was_empty (b : KalahaBoard) (player pit : ℕ)
    (hw : wfBoard b) (hv : is_move_valid b player pit = true)
    (_hland : (sowedBoard b player pit).2 ∈ b.get_player_pits player)
    (h1 : (sowedBoard b player pit).1.get_stones (sowedBoard b player pit).2 = 1) :
    (sowedBoard b player pit).2 = pit ∨
      b.get_stones (sowedBoard b player pit).2 = 0 := by
  by_cases hpiteq : (sowedBoard b player pit).2 = pit
  · exact Or.inl hpiteq
  · right
    obtain ⟨hmem, hpos⟩ := (is_move_valid_true_iff b player pit).mp hv
    have hlen1 : (b.set_stones pit 0).total_pits = (b.set_stones pit 0).board.length := by
      unfold KalahaBoard.total_pits
      unfold wfBoard at hw
      simp [hw]
    unfold sowedBoard at h1 hpiteq ⊢
    have hadd := sow_landing_add (b.get_stones pit) (b.set_stones pit 0) pit
      (b.get_store (1 - player)) hpos hlen1
    rw [h1] at hadd
    have hb1get : (b.set_stones pit 0).get_stones
        (sow (b.set_stones pit 0) (b.get_stones pit) pit (b.get_store (1 - player))).2 =
        b.get_stones
          (sow (b.set_stones pit 0) (b.get_stones pit) pit (b.get_store (1 - player))).2 :=
      get_stones_set_ne b pit _ 0 (fun h => hpiteq h.symm)
    omega

/-- Counterexample to C7 as stated: with one pit per player and three stones
per pit, player 0's opening move from pit 0 wraps around the whole board and
re-enters the lifted pit, which then holds exactly one stone and lies in the
own row, yet held three stones (not zero) before the move. -/
theorem landing_one_counterexample :
    Reachable 1 3 (initBoard 1 3) ∧
    is_move_valid (initBoard 1 3) 0 0 = true ∧
    (sowedBoard (initBoard 1 3) 0 0).2 ∈ (initBoard 1 3).get_player_pits 0 ∧
    (sowedBoard (initBoard 1 3) 0 0).1.get_stones (sowedBoard (initBoard 1 3) 0 0).2 = 1 ∧
    ¬ (initBoard 1 3).get_stones (sowedBoard (initBoard 1 3) 0 0).2 = 0 :=
  ⟨Reachable.init, by decide, by decide, by decide, by decide⟩

/-- Witness for the amended C7 at the same concrete input: the disjunction is
realised through its wraparound case. -/
theorem landing_one_was_empty_witness :
    wfBoard (initBoard 1 3) ∧
    is_move_valid (initBoard 1 3) 0 0 = true ∧
    (sowedBoard (initBoard 1 3) 0 0).2 ∈ (initBoard 1 3).get_player_pits 0 ∧
    (sowedBoard (initBoard 1 3) 0 0).1.get_stones (sowedBoard (initBoard 1 3) 0 0).2 = 1 ∧
    ((sowedBoard (initBoard 1 3) 0 0).2 = 0 ∨
      (initBoard 1 3).get_stones (sowedBoard (initBoard 1 3) 0 0).2 = 0) :=
  ⟨by decide, by decide, by decide, by decide,
    landing_one_was_empty (initBoard 1 3) 0 0 (by decide) (by decide) (by decide) (by decide)⟩

section MctsLemmas

/-- One backpropagation pass adds two visits at a node: `update` runs once
before the tie test and once more in either branch. -/
lemma backprop_at_visits (n : MCTSNode) (r : ℚ) :
    (backprop_at n r).visits = n.visits + 2 := by
  unfold backprop_at MCTSNode.update
  split <;> rfl

/-- Every iteration of the search loop puts exactly two visits on the node it
is run from, whatever the selector, the fuel and the randomness. -/
lemma run_iteration_visits (sel : MCTSNode → ℕ) (fuel pp : ℕ) (n : MCTSNode)
    (rng : List ℕ) :
    (run_iteration sel fuel pp n rng).1.visits = n.visits + 2 := by
  rw [run_iteration]
  split
  · exact backprop_at_visits _ _
  · split
    · exact backprop_at_visits _ _
    · exact backprop_at_visits _ _

lemma mcts_loop_visits (sel : MCTSNode → ℕ) (fuel : ℕ) : ∀ (iters : ℕ)
    (root : MCTSNode) (rng : List ℕ),
    (mcts_loop sel fuel iters root rng).1.visits = root.visits + 2 * iters := by
  intro iters
  induction iters with
  | zero => intro root rng; simp [mcts_loop]
  | succ k ih =>
    intro root rng
    rw [mcts_loop, ih, run_iteration_visits]
    omega

end MctsLemmas

/-- C1 -- The backpropagation pass calls the statistics update twice at every
node on the path (once before the tie test and once more in its else branch),
so after `iters` iterations the root's visit count is `2 * iters`, not
`iters`, for every selector, fuel, board, player and randomness. -/
theorem mcts_root_visits (sel : MCTSNode → ℕ) (fuel iters : ℕ) (b : KalahaBoard)
    (player : ℕ) (rng : List ℕ) :
    (mcts_loop sel fuel iters (mkRoot b player) rng).1.visits = 2 * iters := by
  rw [mcts_loop_visits]
  simp [mkRoot]

/-- C9 -- When the requesting player's row is entirely empty, `get_move`
returns the sentinel `-1` before the iteration loop, for every iteration
budget, selector, fuel and randomness (the embedding is pure, so the caller's
board is untouched; the code deep-copies it besides). -/
theorem decide_no_legal_moves (sel : MCTSNode → ℕ) (fuel iters : ℕ)
    (b : KalahaBoard) (player : ℕ) (rng : List ℕ)
    (hz : ∀ p ∈ b.get_player_pits player, b.get_stones p = 0) :
    mcts_get_move sel fuel iters b player rng = some (-1) := by
  unfold mcts_get_move
  rw [if_pos]
  unfold mkRoot get_untried_moves
  rw [List.filter_eq_nil_iff]
  intro p hp
  simp [hz p hp]

/-- Witness for C9 at a concrete input: player 0's row of `[0,4,3,1]` (P = 1)
is all zero, and the engine answers `-1`. -/
theorem decide_no_legal_moves_witness :
    (∀ p ∈ (⟨1, [0, 4, 3, 1]⟩ : KalahaBoard).get_player_pits 0,
        (⟨1, [0, 4, 3, 1]⟩ : KalahaBoard).get_stones p = 0) ∧
    mcts_get_move (fun _ => 0) 0 5 ⟨1, [0, 4, 3, 1]⟩ 0 [] = some (-1) :=
  ⟨by decide, decide_no_legal_moves (fun _ => 0) 0 5 ⟨1, [0, 4, 3, 1]⟩ 0 [] (by decide)⟩

/-- C2 (amended) -- `rollout` returns `1.0` exactly when the winner of the
finalized simulated game equals the mover of the node's parent
(`self.parent.player`), and `0.0` for a loss or a tie, regardless of the
node's own mover. -/
theorem rollout_parent_relative (fuel : ℕ) (b : KalahaBoard) (np pp : ℕ)
    (rng : List ℕ) :
    (rollout fuel b np pp rng).1 =
      (if get_winner (finish_game (rollout_loop fuel b np rng).1) = (pp : ℤ)
        then 1 else 0) := by
  unfold rollout
  dsimp only
  by_cases h1 : get_winner (finish_game (rollout_loop fuel b np rng).1) = -1
  · rw [if_pos h1, if_neg (by rw [h1]; omega)]
  · rw [if_neg h1]

/-- Counterexample to C2 as stated: a terminal-board node whose parent's mover
is 1 inside a tree whose root mover is 0; the finalized winner is the root
mover 0, yet `rollout` returns `0.0` (it compares with the parent's mover). -/
theorem rollout_root_relative_counterexample :
    get_winner (finish_game (rollout_loop 5 ⟨1, [0, 5, 1, 0]⟩ 0 []).1) = 0 ∧
    (rollout 5 ⟨1, [0, 5, 1, 0]⟩ 0 1 []).1 = 0 ∧
    ¬ ((rollout 5 ⟨1, [0, 5, 1, 0]⟩ 0 1 []).1 = 1 ↔
        get_winner (finish_game (rollout_loop 5 ⟨1, [0, 5, 1, 0]⟩ 0 []).1) = 0) :=
  ⟨by decide, by decide, by decide⟩

/-- C3 -- The engine's selection does not use the configured exploration
weight: `get_move` passes `self.exploration_weight` positionally into the
`is_even` parameter of `uct_select_child`, so the UCT weight stays at its
default `1.0`.  Concretely, with the default configuration (weight `sqrt 2`),
parent visits 4 and children with (wins, visits) of (0, 1) and (3, 4), the
engine selects the second child although the first child strictly maximizes
UCT computed with the configured weight. -/
theorem uct_weight_counterexample :
    engine_select (config_exploration_weight none) 4 [⟨0, 1⟩, ⟨3, 4⟩] = some ⟨3, 4⟩ ∧
    uctValue (Real.log 4) (config_exploration_weight none) ⟨3, 4⟩ <
      uctValue (Real.log 4) (config_exploration_weight none) ⟨0, 1⟩ := by
  have hcw : config_exploration_weight none = Real.sqrt 2 := rfl
  have hlog2_lo := Real.log_two_gt_d9
  have hlog2_hi := Real.log_two_lt_d9
  have hL : Real.log 4 = 2 * Real.log 2 := by
    rw [show (4 : ℝ) = 2 ^ 2 by norm_num, Real.log_pow]
    norm_num
  have hsqrt4 : Real.sqrt 4 = 2 := by
    rw [show (4 : ℝ) = 2 ^ 2 by norm_num, Real.sqrt_sq (by norm_num : (0:ℝ) ≤ 2)]
  have hts : Real.sqrt (Real.log 4) = 2 * Real.sqrt (Real.log 4 / 4) := by
    rw [show Real.log 4 = 4 * (Real.log 4 / 4) by ring,
      Real.sqrt_mul (by norm_num : (0:ℝ) ≤ 4), hsqrt4]
    rw [show 4 * (Real.log 4 / 4) / 4 = Real.log 4 / 4 by ring]
  have hs34 : Real.sqrt (Real.log 4 / 4) < 3 / 4 := by
    rw [Real.sqrt_lt' (by norm_num : (0:ℝ) < 3/4), hL]
    nlinarith
  have hwne : Real.sqrt 2 ≠ 0 :=
    ne_of_gt (Real.sqrt_pos.mpr (by norm_num))
  have hc4 : ((4:ℕ):ℝ) = (4:ℝ) := by norm_num
  have hkey1 : uctValue (Real.log 4) 1 ⟨0, 1⟩ < uctValue (Real.log 4) 1 ⟨3, 4⟩ := by
    unfold uctValue
    rw [if_neg (by norm_num), if_neg (by norm_num)]
    rw [EReal.coe_lt_coe_iff]
    push_cast
    rw [div_one, div_one]
    simp only [one_mul, zero_add]
    rw [hts]
    linarith
  have hsqrt2s : Real.sqrt 2 * Real.sqrt (Real.log 4 / 4) = Real.sqrt (Real.log 2) := by
    rw [← Real.sqrt_mul (by norm_num : (0:ℝ) ≤ 2)]
    congr 1
    rw [hL]
    ring
  have h34lt : (3:ℝ)/4 < Real.sqrt (Real.log 2) := by
    rw [Real.lt_sqrt (by norm_num : (0:ℝ) ≤ 3/4)]
    nlinarith
  constructor
  · unfold engine_select uct_select_child
    rw [hcw, if_pos (by simp [hwne])]
    unfold maxByKey
    simp only [List.foldl_cons, List.foldl_nil]
    rw [if_pos]
    rw [hc4]
    exact hkey1
  · unfold uctValue
    rw [if_neg (by norm_num), if_neg (by norm_num)]
    rw [EReal.coe_lt_coe_iff, hcw]
    push_cast
    rw [div_one, div_one]
    simp only [zero_add]
    rw [hts]
    have hexp : Real.sqrt 2 * (2 * Real.sqrt (Real.log 4 / 4)) =
        2 * (Real.sqrt 2 * Real.sqrt (Real.log 4 / 4)) := by ring
    rw [hexp, hsqrt2s]
    linarith
